import Mathlib

/-!
# Password generator widget (`src/App.jsx`)

A shallow embedding of the `App` component: the four `useState` cells, the
`passwordGenerator` callback, the `useEffect` that re-runs it when one of its
dependencies changes, and `copyPasswordToClipBoard`.

Modelling conventions.
* JavaScript strings are Lean `String`s; every character the program handles
  is ASCII, so `String.length` agrees with the JavaScript `length`.
* JavaScript numbers are binary64 values.  A number is represented by the
  rational it denotes, and the one inexact operation the program performs, the
  product `Math.random() * str.length`, is rounded to the nearest binary64
  value (ties to even) before `Math.floor` sees it.  `Math.floor`, the
  comparison `i <= length` and `i++` are exact on the values that occur.
* `Math.random()` is a host service.  The host is given a stream of the values
  it is going to return; a call returns the head of the stream and leaves the
  tail.  The statements assume these values are binary64 values in `[0, 1)`.
* `length` is an integer (`Int`): the loop test `i <= length` is well defined
  for every integer, and a negative `length` runs the body zero times.  The
  slider handler stores `e.target.value`, the decimal string of an integer,
  which the loop test converts to the number it denotes; the model stores
  that number.
* One user event is one atomic step: the handler updates the state and the
  effect of the following render runs before the next event is handled.
-/

namespace PasswordGenerator

/-! ## The data model -/

/-- The four `useState` cells of `App` (lines 9-12). -/
structure AppState where
  length : Int
  numberAllowed : Bool
  charAllowed : Bool
  password : String

/-- The host services the component calls into: the values `Math.random()` will
return (in order), the system clipboard, and the text currently selected in
the password input. -/
structure Host where
  random : Nat → ℚ
  clipboard : String
  selection : Option String

/-- A widget together with its host. -/
structure World where
  app : AppState
  host : Host

/-! ## JavaScript numbers -/

/-- Round a rational to the nearest integer, ties to the even one. -/
def roundHalfEven (q : ℚ) : Int :=
  if q - ⌊q⌋ < 1 / 2 then ⌊q⌋
  else if 1 / 2 < q - ⌊q⌋ then ⌊q⌋ + 1
  else if ⌊q⌋ % 2 = 0 then ⌊q⌋ else ⌊q⌋ + 1

/-- The binary64 value nearest to a non-negative rational `x` below the
overflow threshold (round to nearest, ties to even): the significand has 53
bits and the exponent is at least `-1022`. -/
def binary64 (x : ℚ) : ℚ :=
  let e := max (Int.log 2 x) (-1022)
  (roundHalfEven (x / (2 : ℚ) ^ (e - 52)) : ℚ) * (2 : ℚ) ^ (e - 52)

/-- A binary64 value: a rational that rounding leaves unchanged. -/
def isBinary64 (x : ℚ) : Prop := binary64 x = x

instance (x : ℚ) : Decidable (isBinary64 x) :=
  inferInstanceAs (Decidable (binary64 x = x))

/-- The JavaScript product `x * y` of two numbers: the exact product, rounded. -/
def times (x y : ℚ) : ℚ := binary64 (x * y)

/-! ## `passwordGenerator` (lines 33-46) -/

/-- The literal on line 35. -/
def letters : String := "ABCDEFGHIJKLMNOPQRSTUVWXYZabcdefghijklmnopqrstuvwxyz"

/-- The literal on line 37. -/
def digits : String := "0123456789"

/-- The literal on line 38. -/
def symbols : String := "`!@#$%^&*[]_-\x7b\x7d+="

/-- Lines 35-38: `str` after the two conditional appends. -/
def pool (numberAllowed charAllowed : Bool) : String :=
  let str := letters
  let str := if numberAllowed then str ++ digits else str
  let str := if charAllowed then str ++ symbols else str
  str

/-- `Math.random()`: returns the next value and advances the host stream. -/
def mathRandom (h : Host) : ℚ × Host :=
  (h.random 0, { h with random := fun k => h.random (k + 1) })

/-- `Math.floor(x)`. -/
def mathFloor (x : ℚ) : Int := ⌊x⌋

/-- `str.charAt(i)`: the one-character string at position `i`, or the empty
string when `i` is not a position of `str`. -/
def charAt (str : String) (i : Int) : String :=
  if 0 ≤ i ∧ i < str.length then
    match str.data[i.toNat]? with
    | some c => String.singleton c
    | none => ""
  else ""

/-- Line 42: `Math.floor(r * str.length)` for the random value `r`. -/
def sampleIndex (r : ℚ) (str : String) : Int :=
  mathFloor (times r (str.length : ℚ))

/-- Lines 41-44: the `for` loop, entered with loop variable `i`, accumulator
`pass` and host `h`.  Each iteration draws one random value, appends
`str.charAt(char)` and increments `i`; the loop ends when `i <= length` fails. -/
def forLoop (length : Int) (str : String) (i : Nat) (pass : String) (h : Host) :
    String × Host :=
  if (i : Int) ≤ length then
    let (r, h1) := mathRandom h
    let char := sampleIndex r str
    forLoop length str (i + 1) (pass ++ charAt str char) h1
  else (pass, h)
termination_by (length + 1 - (i : Int)).toNat
decreasing_by omega

/-- Lines 33-46: build the pool from the current options, run the loop from
`i = 0` with `pass = ""`, and store the result with `setPassword`. -/
def passwordGenerator (w : World) : World :=
  let str := pool w.app.numberAllowed w.app.charAllowed
  let (pass, h1) := forLoop w.app.length str 0 "" w.host
  { app := { w.app with password := pass }, host := h1 }

/-! ## The component life cycle -/

/-- The `useState` initial values (lines 9-12). -/
def initialApp : AppState :=
  { length := 8, numberAllowed := false, charAllowed := false, password := "" }

/-- Lines 52-56 on mount: the effect runs once after the first render. -/
def mount (h : Host) : World :=
  passwordGenerator { app := initialApp, host := h }

/-- Lines 52-56 after a state update: the effect re-runs exactly when one of
`length`, `numberAllowed`, `charAllowed` differs from the previous render
(`passwordGenerator` itself is memoised on the same three values). -/
def useEffect (previous : AppState) (w : World) : World :=
  if previous.length = w.app.length ∧ previous.numberAllowed = w.app.numberAllowed
      ∧ previous.charAllowed = w.app.charAllowed then w
  else passwordGenerator w

/-- Lines 76-83: select the text of the password input, then write `password`
to the clipboard. -/
def copyPasswordToClipBoard (w : World) : World :=
  let h1 : Host := { w.host with selection := some w.app.password }
  { w with host := { h1 with clipboard := w.app.password } }

/-- The user events the rendered controls can dispatch (lines 99-139). -/
inductive Event where
  | setLength (value : Int)
  | toggleNumber
  | toggleChar
  | copy

/-- The range input (lines 109-118) only reports integers from `min = 6` to
`max = 100`; the other controls carry no data. -/
def Event.valid : Event → Bool
  | .setLength v => decide (6 ≤ v) && decide (v ≤ 100)
  | _ => true

/-- The state update an event handler performs, before effects run. -/
def handler (e : Event) (a : AppState) : AppState :=
  match e with
  | .setLength v => { a with length := v }
  | .toggleNumber => { a with numberAllowed := !a.numberAllowed }
  | .toggleChar => { a with charAllowed := !a.charAllowed }
  | .copy => a

/-- One event: the handler updates the state, the component re-renders and the
effect is run against the dependencies of the previous render.  The copy
button calls `copyPasswordToClipBoard` and updates no state. -/
def step (w : World) (e : Event) : World :=
  match e with
  | .copy => copyPasswordToClipBoard w
  | e => useEffect w.app { w with app := handler e w.app }

/-- The widget after mounting on host `h` and handling `es` in order. -/
def run (h : Host) (es : List Event) : World :=
  es.foldl step (mount h)

/-- A number `Math.random()` may return: a binary64 value in `[0, 1)`. -/
def unitValue (r : ℚ) : Prop :=
  0 ≤ r ∧ r < 1 ∧ isBinary64 r

/-- A host whose random source only returns binary64 values in `[0, 1)`. -/
def Host.inUnitInterval (h : Host) : Prop :=
  ∀ k, unitValue (h.random k)

/-- A configuration the controls can produce: `6 ≤ length ≤ 100`. -/
def AppState.valid (a : AppState) : Prop :=
  6 ≤ a.length ∧ a.length ≤ 100

instance (a : AppState) : Decidable a.valid :=
  inferInstanceAs (Decidable (6 ≤ a.length ∧ a.length ≤ 100))

/-! ## Auxiliary definitions for the statements and proofs -/

/-- The host after `m` further calls of `Math.random()`. -/
def Host.advance (h : Host) (m : Nat) : Host :=
  { h with random := fun k => h.random (k + m) }

/-- The text appended by `m` consecutive iterations of the loop body when the
random source returns `rnd 0, rnd 1, ...`. -/
def draws (str : String) (rnd : Nat → ℚ) : Nat → String
  | 0 => ""
  | m + 1 => charAt str (sampleIndex (rnd 0) str) ++ draws str (fun k => rnd (k + 1)) m

/-- An upper- or lowercase ASCII letter, by code point. -/
def asciiLetter (c : Char) : Prop :=
  (65 ≤ c.toNat ∧ c.toNat ≤ 90) ∨ (97 ≤ c.toNat ∧ c.toNat ≤ 122)

/-- One of the ten ASCII digits, by code point. -/
def asciiDigit (c : Char) : Prop :=
  48 ≤ c.toNat ∧ c.toNat ≤ 57

/-- One of the seventeen symbols the specification lists, by code point, in
the order backquote, exclamation mark, at, hash, dollar, percent, caret, ampersand,
asterisk, square brackets, underscore, hyphen, braces, plus, equals. -/
def listedSymbol (c : Char) : Prop :=
  c.toNat ∈ [96, 33, 64, 35, 36, 37, 94, 38, 42, 91, 93, 95, 45, 123, 125, 43, 61]

/-- An event that changes one of `length`, `numberAllowed`, `charAllowed`. -/
def Event.changesConfig (a : AppState) : Event → Prop
  | .setLength v => v ≠ a.length
  | .toggleNumber => True
  | .toggleChar => True
  | .copy => False

/-- A host whose random source always returns `r`. -/
def constHost (r : ℚ) : Host :=
  { random := fun _ => r, clipboard := "", selection := none }

/-- A widget state with the given configuration and an empty password, on a
host whose random source always returns `r`. -/
def sampleWorld (length : Int) (numberAllowed charAllowed : Bool) (r : ℚ) : World :=
  { app := { length := length, numberAllowed := numberAllowed, charAllowed := charAllowed,
             password := "" },
    host := constHost r }

/-- The password is consistent with the configuration: it has `length + 1`
characters, all of them in the pool of the current options. -/
def World.consistent (w : World) : Prop :=
  (w.app.password.length : Int) = w.app.length + 1
    ∧ ∀ c ∈ w.app.password.data, c ∈ (pool w.app.numberAllowed w.app.charAllowed).data

/-- The index the formula `floor (r * pool.length)` gives when the product is
taken exactly, as the specification writes it. -/
def exactIndex (r : ℚ) (str : String) : Int :=
  ⌊r * (str.length : ℚ)⌋

/-! ## Lemmas on binary64 rounding -/

theorem roundHalfEven_le_succ_floor (q : ℚ) : roundHalfEven q ≤ ⌊q⌋ + 1 := by
  unfold roundHalfEven
  split_ifs <;> omega

theorem floor_le_roundHalfEven (q : ℚ) : ⌊q⌋ ≤ roundHalfEven q := by
  unfold roundHalfEven
  split_ifs <;> omega

theorem roundHalfEven_le_add_half (q : ℚ) : (roundHalfEven q : ℚ) ≤ q + 1 / 2 := by
  unfold roundHalfEven
  have hf := Int.floor_le q
  split_ifs with h1 h2 h3
  · linarith
  · push_cast; linarith
  · linarith
  · push_cast; linarith

theorem roundHalfEven_le_of_le (q : ℚ) (N : Int) (h : q ≤ N) : roundHalfEven q ≤ N := by
  rcases h.lt_or_eq with h | h
  · have : ⌊q⌋ < N := Int.floor_lt.mpr h
    have := roundHalfEven_le_succ_floor q
    omega
  · subst h
    unfold roundHalfEven
    simp

theorem binary64_nonneg (x : ℚ) (hx : 0 ≤ x) : 0 ≤ binary64 x := by
  unfold binary64
  simp only []
  have hu : (0 : ℚ) < (2 : ℚ) ^ (max (Int.log 2 x) (-1022) - 52) := by positivity
  have hq : 0 ≤ x / (2 : ℚ) ^ (max (Int.log 2 x) (-1022) - 52) := div_nonneg hx hu.le
  have : (0 : Int) ≤ roundHalfEven (x / (2 : ℚ) ^ (max (Int.log 2 x) (-1022) - 52)) :=
    le_trans (Int.floor_nonneg.mpr hq) (floor_le_roundHalfEven _)
  have : (0 : ℚ) ≤ (roundHalfEven (x / (2 : ℚ) ^ (max (Int.log 2 x) (-1022) - 52)) : ℚ) := by
    exact_mod_cast this
  exact mul_nonneg this hu.le

/-- Below a power of two, rounding does not go past that power. -/
theorem binary64_le_pow (x : ℚ) (hx : 0 < x) (e : Int) (he : -1022 < e) (h : x < (2 : ℚ) ^ e) :
    binary64 x ≤ (2 : ℚ) ^ e := by
  have hL : Int.log 2 x < e := by
    rw [← Int.lt_zpow_iff_log_lt (by norm_num) hx]
    simpa using h
  have hlt := Int.lt_zpow_succ_log_self (R := ℚ) (b := 2) (by norm_num) x
  simp only [Nat.cast_ofNat] at hlt
  unfold binary64
  simp only []
  generalize hE : max (Int.log 2 x) (-1022) = E
  have hE1 : Int.log 2 x ≤ E := hE ▸ le_max_left _ _
  have hE2 : E + 1 ≤ e := by
    rw [← hE]
    rcases max_cases (Int.log 2 x) (-1022) with ⟨h1, _⟩ | ⟨h1, _⟩ <;> omega
  have hu : (0 : ℚ) < (2 : ℚ) ^ (E - 52) := by positivity
  have hx2 : x < (2 : ℚ) ^ (E + 1) :=
    lt_of_lt_of_le hlt (zpow_le_zpow_right₀ (by norm_num) (by omega))
  have hp : (2 : ℚ) ^ (53 : ℕ) * (2 : ℚ) ^ (E - 52) = (2 : ℚ) ^ (E + 1) := by
    rw [← zpow_natCast, ← zpow_add₀ (by norm_num)]
    congr 1
    omega
  have hq : x / (2 : ℚ) ^ (E - 52) ≤ (2 : ℚ) ^ (53 : ℕ) := by
    rw [div_le_iff₀ hu, hp]
    exact hx2.le
  have hr := roundHalfEven_le_of_le (x / (2 : ℚ) ^ (E - 52)) ((2 : Int) ^ (53 : ℕ)) (by
    rw [Int.cast_pow]
    exact_mod_cast hq)
  have hr2 : (roundHalfEven (x / (2 : ℚ) ^ (E - 52)) : ℚ) ≤ (2 : ℚ) ^ (53 : ℕ) := by
    exact_mod_cast hr
  calc (roundHalfEven (x / (2 : ℚ) ^ (E - 52)) : ℚ) * (2 : ℚ) ^ (E - 52)
      ≤ (2 : ℚ) ^ (53 : ℕ) * (2 : ℚ) ^ (E - 52) := mul_le_mul_of_nonneg_right hr2 hu.le
    _ = (2 : ℚ) ^ (E + 1) := hp
    _ ≤ (2 : ℚ) ^ e := zpow_le_zpow_right₀ (by norm_num) hE2

theorem binary64_zero : binary64 0 = 0 := by
  unfold binary64 roundHalfEven
  simp

/-- A natural number `n` strictly between `2 ^ e` and `2 ^ (e + 1)` is not reached
by rounding any product `r * n` with `r` at most the largest binary64 value
below one. -/
theorem binary64_lt_nat (n e : ℕ) (he : e ≤ 52) (hlo : 2 ^ e < n) (hhi : n < 2 ^ (e + 1))
    (x : ℚ) (hx0 : 0 ≤ x) (hx : x ≤ (n : ℚ) * (1 - 1 / 2 ^ 53)) : binary64 x < (n : ℚ) := by
  have hloq : (2 : ℚ) ^ e < (n : ℚ) := by exact_mod_cast hlo
  have hhiq : (n : ℚ) < (2 : ℚ) ^ (e + 1) := by exact_mod_cast hhi
  have hnpos : (0 : ℚ) < (n : ℚ) := lt_trans (by positivity) hloq
  have hxn : x < (n : ℚ) := by
    have : (n : ℚ) * (1 - 1 / 2 ^ 53) < (n : ℚ) * 1 :=
      mul_lt_mul_of_pos_left (by norm_num) hnpos
    linarith
  rcases hx0.eq_or_lt with h0 | hpos
  · rw [← h0, binary64_zero]
    exact hnpos
  by_cases hsmall : x < (2 : ℚ) ^ e
  · have := binary64_le_pow x hpos (e : Int) (by omega) (by simpa using hsmall)
    rw [zpow_natCast] at this
    exact lt_of_le_of_lt this hloq
  · have hge : (2 : ℚ) ^ e ≤ x := not_lt.mp hsmall
    have hlog : Int.log 2 x = (e : Int) := by
      apply le_antisymm
      · have : Int.log 2 x < (e : Int) + 1 := by
          rw [← Int.lt_zpow_iff_log_lt (by norm_num) hpos]
          have h2 : x < (2 : ℚ) ^ (e + 1) := lt_trans hxn hhiq
          rw [← zpow_natCast] at h2
          simpa using h2
        omega
      · rw [← Int.zpow_le_iff_le_log (by norm_num) hpos]
        simpa using hge
    unfold binary64
    simp only []
    rw [hlog, max_eq_left (by omega)]
    have hu : (2 : ℚ) ^ ((e : Int) - 52) = ((2 : ℚ) ^ (52 - e))⁻¹ := by
      rw [show (e : Int) - 52 = -((52 - e : ℕ) : Int) by omega, zpow_neg, zpow_natCast]
    rw [hu, div_inv_eq_mul]
    have hP : (0 : ℚ) < (2 : ℚ) ^ (52 - e) := by positivity
    have h53 : (2 : ℚ) ^ 53 = (2 : ℚ) ^ (52 - e) * (2 : ℚ) ^ (e + 1) := by
      rw [← pow_add]
      congr 1
      omega
    have hq : x * (2 : ℚ) ^ (52 - e) + 1 / 2 < ((n * 2 ^ (52 - e) : ℕ) : ℚ) := by
      push_cast
      have h1 : x * (2 : ℚ) ^ (52 - e)
          ≤ (n : ℚ) * (1 - 1 / 2 ^ 53) * (2 : ℚ) ^ (52 - e) :=
        mul_le_mul_of_nonneg_right hx hP.le
      have h2 : (n : ℚ) * (1 - 1 / 2 ^ 53) * (2 : ℚ) ^ (52 - e)
          = (n : ℚ) * (2 : ℚ) ^ (52 - e) - (n : ℚ) / (2 : ℚ) ^ (e + 1) := by
        rw [h53]
        field_simp
        ring
      have h3 : (1 : ℚ) / 2 < (n : ℚ) / (2 : ℚ) ^ (e + 1) := by
        rw [lt_div_iff₀ (by positivity), pow_succ]
        linarith
      linarith
    have hr := roundHalfEven_le_add_half (x * (2 : ℚ) ^ (52 - e))
    have hr2 : roundHalfEven (x * (2 : ℚ) ^ (52 - e)) < ((n * 2 ^ (52 - e) : ℕ) : Int) := by
      have : (roundHalfEven (x * (2 : ℚ) ^ (52 - e)) : ℚ) < ((n * 2 ^ (52 - e) : ℕ) : ℚ) :=
        lt_of_le_of_lt hr hq
      exact_mod_cast this
    have hr3 : (roundHalfEven (x * (2 : ℚ) ^ (52 - e)) : ℚ)
        ≤ (n : ℚ) * (2 : ℚ) ^ (52 - e) - 1 := by
      have : roundHalfEven (x * (2 : ℚ) ^ (52 - e)) ≤ ((n * 2 ^ (52 - e) : ℕ) : Int) - 1 := by
        omega
      exact_mod_cast this
    have hinv : (0 : ℚ) < ((2 : ℚ) ^ (52 - e))⁻¹ := inv_pos.mpr hP
    calc (roundHalfEven (x * (2 : ℚ) ^ (52 - e)) : ℚ) * ((2 : ℚ) ^ (52 - e))⁻¹
        ≤ ((n : ℚ) * (2 : ℚ) ^ (52 - e) - 1) * ((2 : ℚ) ^ (52 - e))⁻¹ :=
          mul_le_mul_of_nonneg_right hr3 hinv.le
      _ = (n : ℚ) - ((2 : ℚ) ^ (52 - e))⁻¹ := by
          field_simp
      _ < (n : ℚ) := by linarith

theorem roundHalfEven_intCast (K : Int) : roundHalfEven (K : ℚ) = K := by
  unfold roundHalfEven
  simp

theorem log_eq_of_bounds (x : ℚ) (e : Int) (h1 : (2 : ℚ) ^ e ≤ x) (h2 : x < (2 : ℚ) ^ (e + 1)) :
    Int.log 2 x = e := by
  have hpos : 0 < x := lt_of_lt_of_le (by positivity) h1
  apply le_antisymm
  · have : Int.log 2 x < e + 1 := by
      rw [← Int.lt_zpow_iff_log_lt (by norm_num) hpos]
      simpa using h2
    omega
  · rw [← Int.zpow_le_iff_le_log (by norm_num) hpos]
    simpa using h1

theorem log_bounds (x : ℚ) (hx : 0 < x) :
    (2 : ℚ) ^ Int.log 2 x ≤ x ∧ x < (2 : ℚ) ^ (Int.log 2 x + 1) := by
  have h1 := Int.zpow_log_le_self (R := ℚ) (b := 2) (by norm_num) hx
  have h2 := Int.lt_zpow_succ_log_self (R := ℚ) (b := 2) (by norm_num) x
  simp only [Nat.cast_ofNat] at h1 h2
  exact ⟨h1, h2⟩

theorem log_lt_of_lt (x : ℚ) (hx : 0 < x) (e : Int) (h : x < (2 : ℚ) ^ e) : Int.log 2 x < e := by
  rw [← Int.lt_zpow_iff_log_lt (by norm_num) hx]
  simpa using h

theorem le_log_of_le (x : ℚ) (hx : 0 < x) (e : Int) (h : (2 : ℚ) ^ e ≤ x) : e ≤ Int.log 2 x := by
  rw [← Int.zpow_le_iff_le_log (by norm_num) hx]
  simpa using h

/-- A rational that is an integer multiple of its own unit in the last place
is a binary64 value. -/
theorem isBinary64_of_multiple (x : ℚ) (K : Int)
    (h : x = (K : ℚ) * (2 : ℚ) ^ (max (Int.log 2 x) (-1022) - 52)) : isBinary64 x := by
  unfold isBinary64 binary64
  simp only []
  have hu : (2 : ℚ) ^ (max (Int.log 2 x) (-1022) - 52) ≠ 0 := by positivity
  have hq : x / (2 : ℚ) ^ (max (Int.log 2 x) (-1022) - 52) = (K : ℚ) := by
    rw [div_eq_iff hu]
    exact h
  rw [hq, roundHalfEven_intCast]
  exact h.symm

/-- Every `m / 2 ^ j` with `m < 2 ^ 53` and `j ≤ 1074` is a binary64 value. -/
theorem isBinary64_dyadic (m j : ℕ) (hm : m < 2 ^ 53) (hj : j ≤ 1074) :
    isBinary64 ((m : ℚ) / (2 : ℚ) ^ j) := by
  rcases Nat.eq_zero_or_pos m with h0 | hpos
  · subst h0
    simp [isBinary64, binary64_zero]
  have hmq : (0 : ℚ) < (m : ℚ) := by exact_mod_cast hpos
  have hx : (0 : ℚ) < (m : ℚ) / (2 : ℚ) ^ j := by positivity
  generalize hxdef : (m : ℚ) / (2 : ℚ) ^ j = x at hx
  have hxj : x = (m : ℚ) * (2 : ℚ) ^ (-(j : Int)) := by
    rw [← hxdef, zpow_neg, zpow_natCast, div_eq_mul_inv]
  -- the exponent of `x` is small enough for `m` to fit in the significand
  have hL : Int.log 2 x + (j : Int) ≤ 52 := by
    have : Int.log 2 x < 53 - (j : Int) := by
      apply log_lt_of_lt x hx
      rw [hxj, show (53 : Int) - (j : Int) = ((53 : ℕ) : Int) + (-(j : Int)) by omega,
        zpow_add₀ (by norm_num), zpow_natCast]
      apply mul_lt_mul_of_pos_right _ (by positivity)
      exact_mod_cast hm
    omega
  generalize hE : max (Int.log 2 x) (-1022) = E
  have hEj : E + (j : Int) ≤ 52 + 1022 - 1022 + 0 ∨ E = -1022 := by
    rcases max_cases (Int.log 2 x) (-1022) with ⟨h1, _⟩ | ⟨h1, _⟩
    · left; omega
    · right; omega
  have ht : 0 ≤ 52 - E - (j : Int) := by
    rcases hEj with h | h <;> omega
  apply isBinary64_of_multiple x (((m * 2 ^ (52 - E - (j : Int)).toNat : ℕ) : Int))
  rw [hE, hxj]
  push_cast
  rw [mul_assoc]
  congr 1
  rw [← zpow_natCast, ← zpow_add₀ (by norm_num)]
  congr 1
  omega

/-- Rounding never goes below an integer that the argument has reached. -/
theorem binary64_ge_nat (N : ℕ) (x : ℚ) (h : (N : ℚ) ≤ x) (hx : x < (2 : ℚ) ^ (53 : ℕ)) :
    (N : ℚ) ≤ binary64 x := by
  rcases Nat.eq_zero_or_pos N with h0 | hN
  · subst h0
    have : (0 : ℚ) ≤ x := by simpa using h
    simpa using binary64_nonneg x this
  have h1 : (1 : ℚ) ≤ x := le_trans (by exact_mod_cast hN) h
  have hpos : (0 : ℚ) < x := lt_of_lt_of_le one_pos h1
  have hL0 : 0 ≤ Int.log 2 x := le_log_of_le x hpos 0 (by simpa using h1)
  have hL1 : Int.log 2 x < 53 := log_lt_of_lt x hpos 53 (by
    rw [show (53 : Int) = ((53 : ℕ) : Int) by rfl, zpow_natCast]
    exact hx)
  unfold binary64
  simp only []
  rw [max_eq_left (by omega)]
  obtain ⟨j, hj⟩ := Int.eq_ofNat_of_zero_le hL0
  rw [hj] at hL1 ⊢
  have hj52 : j ≤ 52 := by omega
  have hu : (2 : ℚ) ^ ((j : Int) - 52) = ((2 : ℚ) ^ (52 - j))⁻¹ := by
    rw [show (j : Int) - 52 = -((52 - j : ℕ) : Int) by omega, zpow_neg, zpow_natCast]
  rw [hu, div_inv_eq_mul]
  have hP : (0 : ℚ) < (2 : ℚ) ^ (52 - j) := by positivity
  have hq : (((N * 2 ^ (52 - j) : ℕ) : Int) : ℚ) ≤ x * (2 : ℚ) ^ (52 - j) := by
    push_cast
    exact mul_le_mul_of_nonneg_right h hP.le
  have hf : ((N * 2 ^ (52 - j) : ℕ) : Int) ≤ roundHalfEven (x * (2 : ℚ) ^ (52 - j)) :=
    le_trans (Int.le_floor.mpr hq) (floor_le_roundHalfEven _)
  have hf2 : (N : ℚ) * (2 : ℚ) ^ (52 - j) ≤ (roundHalfEven (x * (2 : ℚ) ^ (52 - j)) : ℚ) := by
    exact_mod_cast hf
  calc (N : ℚ) = (N : ℚ) * (2 : ℚ) ^ (52 - j) * ((2 : ℚ) ^ (52 - j))⁻¹ := by
        field_simp
    _ ≤ (roundHalfEven (x * (2 : ℚ) ^ (52 - j)) : ℚ) * ((2 : ℚ) ^ (52 - j))⁻¹ :=
        mul_le_mul_of_nonneg_right hf2 (inv_pos.mpr hP).le

/-- Below 128 rounding adds at most `2 ^ (-47)`, half a unit in the last place
of the largest values. -/
theorem binary64_le_add (x : ℚ) (hx0 : 0 ≤ x) (hx : x < 128) :
    binary64 x ≤ x + 1 / 2 ^ 47 := by
  rcases hx0.eq_or_lt with h0 | hpos
  · rw [← h0, binary64_zero]
    positivity
  have hL : Int.log 2 x < 7 := log_lt_of_lt x hpos 7 (by
    rw [show (7 : Int) = ((7 : ℕ) : Int) by rfl, zpow_natCast]
    norm_num
    exact hx)
  unfold binary64
  simp only []
  generalize hE : max (Int.log 2 x) (-1022) = E
  have hE6 : E ≤ 6 := by
    rw [← hE]
    rcases max_cases (Int.log 2 x) (-1022) with ⟨h1, _⟩ | ⟨h1, _⟩ <;> omega
  have hu : (0 : ℚ) < (2 : ℚ) ^ (E - 52) := by positivity
  have hu2 : (2 : ℚ) ^ (E - 52) ≤ 1 / 2 ^ 46 := by
    have : (2 : ℚ) ^ (E - 52) ≤ (2 : ℚ) ^ (-(46 : Int)) :=
      zpow_le_zpow_right₀ (by norm_num) (by omega)
    rw [zpow_neg, show (46 : Int) = ((46 : ℕ) : Int) by rfl, zpow_natCast] at this
    rw [one_div]
    exact this
  have hr := roundHalfEven_le_add_half (x / (2 : ℚ) ^ (E - 52))
  calc (roundHalfEven (x / (2 : ℚ) ^ (E - 52)) : ℚ) * (2 : ℚ) ^ (E - 52)
      ≤ (x / (2 : ℚ) ^ (E - 52) + 1 / 2) * (2 : ℚ) ^ (E - 52) :=
        mul_le_mul_of_nonneg_right hr hu.le
    _ = x + (2 : ℚ) ^ (E - 52) / 2 := by
        field_simp
        ring
    _ ≤ x + 1 / 2 ^ 47 := by
        have : (2 : ℚ) ^ (E - 52) / 2 ≤ 1 / 2 ^ 46 / 2 := by linarith
        have e : (1 : ℚ) / 2 ^ 46 / 2 = 1 / 2 ^ 47 := by norm_num
        linarith

/-- Every binary64 value below one is at most `1 - 2 ^ (-53)`. -/
theorem isBinary64_le_pred_one (r : ℚ) (hd : isBinary64 r) (h0 : 0 ≤ r) (h1 : r < 1) :
    r ≤ 1 - 1 / 2 ^ 53 := by
  rcases h0.eq_or_lt with hz | hpos
  · rw [← hz]
    norm_num
  have hL : Int.log 2 r < 0 := log_lt_of_lt r hpos 0 (by simpa using h1)
  by_cases hL1 : Int.log 2 r = -1
  · unfold isBinary64 binary64 at hd
    simp only [hL1] at hd
    rw [max_eq_left (by omega)] at hd
    have hu : (2 : ℚ) ^ ((-1 : Int) - 52) = 1 / 2 ^ 53 := by
      rw [show (-1 : Int) - 52 = -((53 : ℕ) : Int) by rfl, zpow_neg, zpow_natCast]
      simp
    rw [hu] at hd
    generalize roundHalfEven (r / (1 / 2 ^ 53)) = m at hd
    have hm : (m : ℚ) < ((2 ^ 53 : ℕ) : Int) := by
      rw [← hd] at h1
      push_cast
      have : (m : ℚ) * (1 / 2 ^ 53) * 2 ^ 53 < 1 * 2 ^ 53 :=
        mul_lt_mul_of_pos_right h1 (by positivity)
      have e : (m : ℚ) * (1 / 2 ^ 53) * 2 ^ 53 = (m : ℚ) := by field_simp
      linarith
    have hm2 : m < ((2 ^ 53 : ℕ) : Int) := by exact_mod_cast hm
    have hm3 : m ≤ ((2 ^ 53 : ℕ) : Int) - 1 := by omega
    have hm4 : (m : ℚ) ≤ 2 ^ 53 - 1 := by exact_mod_cast hm3
    rw [← hd]
    have : (m : ℚ) * (1 / 2 ^ 53) ≤ (2 ^ 53 - 1) * (1 / 2 ^ 53) :=
      mul_le_mul_of_nonneg_right hm4 (by positivity)
    have e : ((2 : ℚ) ^ 53 - 1) * (1 / 2 ^ 53) = 1 - 1 / 2 ^ 53 := by field_simp
    linarith
  · have hL2 : Int.log 2 r + 1 ≤ -1 := by omega
    have hb := (log_bounds r hpos).2
    have : (2 : ℚ) ^ (Int.log 2 r + 1) ≤ (2 : ℚ) ^ (-1 : Int) :=
      zpow_le_zpow_right₀ (by norm_num) hL2
    have e : (2 : ℚ) ^ (-1 : Int) = 1 / 2 := by norm_num
    rw [e] at this
    have : r < 1 / 2 := lt_of_lt_of_le hb this
    have : (1 : ℚ) / 2 ≤ 1 - 1 / 2 ^ 53 := by norm_num
    linarith

theorem roundHalfEven_tie_odd (f : Int) (hodd : f % 2 = 1) :
    roundHalfEven ((f : ℚ) + 1 / 2) = f + 1 := by
  have hfl : ⌊(f : ℚ) + 1 / 2⌋ = f := by
    rw [Int.floor_eq_iff]
    constructor <;> norm_num
  unfold roundHalfEven
  rw [hfl]
  have e : (f : ℚ) + 1 / 2 - (f : ℚ) = 1 / 2 := by ring
  rw [e]
  simp [hodd]

theorem roundHalfEven_up (f : Int) (q : ℚ) (h1 : (f : ℚ) + 1 / 2 < q) (h2 : q < (f : ℚ) + 1) :
    roundHalfEven q = f + 1 := by
  have hfl : ⌊q⌋ = f := by
    rw [Int.floor_eq_iff]
    constructor <;> linarith
  unfold roundHalfEven
  rw [hfl, if_neg (by linarith), if_pos (by linarith)]

theorem binary64_eval (x : ℚ) (e K : Int) (he : -1022 ≤ e) (h1 : (2 : ℚ) ^ e ≤ x)
    (h2 : x < (2 : ℚ) ^ (e + 1)) (hK : roundHalfEven (x / (2 : ℚ) ^ (e - 52)) = K) :
    binary64 x = (K : ℚ) * (2 : ℚ) ^ (e - 52) := by
  unfold binary64
  simp only []
  rw [log_eq_of_bounds x e h1 h2, max_eq_left he, hK]

/-! ## Lemmas on the loop and the pool -/

/-- For a string whose length lies strictly between two consecutive powers of
two, the index sampled from a binary64 value in `[0, 1)` is a position. -/
theorem sampleIndex_range (r : ℚ) (str : String) (hr : unitValue r) (e : ℕ) (he : e ≤ 52)
    (hlo : 2 ^ e < str.length) (hhi : str.length < 2 ^ (e + 1)) :
    0 ≤ sampleIndex r str ∧ sampleIndex r str < str.length := by
  obtain ⟨h0, h1, hd⟩ := hr
  have hn : (0 : ℚ) ≤ (str.length : ℚ) := Nat.cast_nonneg _
  have hx0 : 0 ≤ r * (str.length : ℚ) := mul_nonneg h0 hn
  have hx1 : r * (str.length : ℚ) ≤ (str.length : ℚ) * (1 - 1 / 2 ^ 53) := by
    rw [mul_comm]
    exact mul_le_mul_of_nonneg_left (isBinary64_le_pred_one r hd h0 h1) hn
  unfold sampleIndex mathFloor times
  refine ⟨Int.floor_nonneg.mpr (binary64_nonneg _ hx0), ?_⟩
  rw [Int.floor_lt]
  exact binary64_lt_nat str.length e he hlo hhi _ hx0 hx1

theorem charAt_of_range (str : String) (i : Int) (h0 : 0 ≤ i) (h1 : i < str.length) :
    ∃ c, str.data[i.toNat]? = some c ∧ charAt str i = String.singleton c := by
  have hlt : i.toNat < str.data.length := by
    have : i.toNat < str.length := by omega
    exact this
  refine ⟨str.data[i.toNat], List.getElem?_eq_getElem hlt, ?_⟩
  unfold charAt
  rw [if_pos ⟨h0, h1⟩, List.getElem?_eq_getElem hlt]

theorem forLoop_eq (length : Int) (str : String) :
    ∀ (m i : Nat) (pass : String) (h : Host), (length + 1 - (i : Int)).toNat = m →
      forLoop length str i pass h = (pass ++ draws str h.random m, h.advance m) := by
  intro m
  induction m with
  | zero =>
    intro i pass h hm
    rw [forLoop, if_neg (by omega)]
    simp [draws, Host.advance]
  | succ m ih =>
    intro i pass h hm
    rw [forLoop, if_pos (by omega)]
    simp only [mathRandom]
    rw [ih (i + 1) _ _ (by push_cast; omega)]
    simp only [draws, String.append_assoc, Host.advance]
    rfl

theorem draws_spec (str : String) (e : ℕ) (he : e ≤ 52)
    (hlo : 2 ^ e < str.length) (hhi : str.length < 2 ^ (e + 1)) :
    ∀ (m : Nat) (rnd : Nat → ℚ), (∀ k, unitValue (rnd k)) →
      (draws str rnd m).data.length = m ∧
      ∀ i, i < m →
        (draws str rnd m).data[i]? = str.data[(sampleIndex (rnd i) str).toNat]? := by
  intro m
  induction m with
  | zero =>
    intro rnd _
    exact ⟨rfl, fun i hi => absurd hi (Nat.not_lt_zero i)⟩
  | succ m ih =>
    intro rnd hr
    obtain ⟨hlen, hget⟩ := ih (fun k => rnd (k + 1)) (fun k => hr (k + 1))
    obtain ⟨h0, h1⟩ := sampleIndex_range (rnd 0) str (hr 0) e he hlo hhi
    obtain ⟨c, hc, hat⟩ := charAt_of_range str _ h0 h1
    have hd : (draws str rnd (m + 1)).data
        = c :: (draws str (fun k => rnd (k + 1)) m).data := by
      simp [draws, hat, String.singleton]
    rw [hd]
    refine ⟨by simp [hlen], fun i hi => ?_⟩
    cases i with
    | zero => simpa using hc.symm
    | succ i => simpa using hget i (by omega)


theorem mem_iff_toNat_mem (l : List Char) (c : Char) :
    c ∈ l ↔ c.toNat ∈ l.map Char.toNat := by
  constructor
  · exact fun h => List.mem_map_of_mem _ h
  · intro h
    obtain ⟨d, hd, hdc⟩ := List.mem_map.mp h
    have : d = c := by rw [← Char.ofNat_toNat d, ← Char.ofNat_toNat c, hdc]
    exact this ▸ hd

theorem pool_length (numberAllowed charAllowed : Bool) :
    (pool numberAllowed charAllowed).length
      = 52 + (if numberAllowed then 10 else 0) + (if charAllowed then 17 else 0) := by
  cases numberAllowed <;> cases charAllowed <;> decide

theorem pool_pos (numberAllowed charAllowed : Bool) :
    0 < (pool numberAllowed charAllowed).length := by
  rw [pool_length]; omega

theorem pool_window (numberAllowed charAllowed : Bool) :
    ∃ e : ℕ, e ≤ 52 ∧ 2 ^ e < (pool numberAllowed charAllowed).length
      ∧ (pool numberAllowed charAllowed).length < 2 ^ (e + 1) := by
  cases numberAllowed <;> cases charAllowed
  · exact ⟨5, by decide, by decide, by decide⟩
  · exact ⟨6, by decide, by decide, by decide⟩
  · exact ⟨5, by decide, by decide, by decide⟩
  · exact ⟨6, by decide, by decide, by decide⟩

theorem pool_le (numberAllowed charAllowed : Bool) :
    (pool numberAllowed charAllowed).length ≤ 79 := by
  rw [pool_length]
  cases numberAllowed <;> cases charAllowed <;> decide

theorem pool_sampleIndex_range (numberAllowed charAllowed : Bool) (r : ℚ) (hr : unitValue r) :
    0 ≤ sampleIndex r (pool numberAllowed charAllowed)
      ∧ sampleIndex r (pool numberAllowed charAllowed)
          < (pool numberAllowed charAllowed).length := by
  obtain ⟨e, he, hlo, hhi⟩ := pool_window numberAllowed charAllowed
  exact sampleIndex_range r _ hr e he hlo hhi

theorem pool_nodup (numberAllowed charAllowed : Bool) :
    (pool numberAllowed charAllowed).data.Nodup := by
  cases numberAllowed <;> cases charAllowed <;> decide

theorem mem_pool_iff (numberAllowed charAllowed : Bool) (c : Char) :
    c ∈ (pool numberAllowed charAllowed).data ↔
      asciiLetter c ∨ (numberAllowed = true ∧ asciiDigit c)
        ∨ (charAllowed = true ∧ listedSymbol c) := by
  rw [mem_iff_toNat_mem]
  unfold asciiLetter asciiDigit listedSymbol
  generalize c.toNat = n
  cases numberAllowed <;> cases charAllowed
  · have : (pool false false).data.map Char.toNat = List.range' 65 26 ++ List.range' 97 26 := by
      decide
    rw [this]
    simp only [List.mem_append, List.mem_range'_1]
    simp
    omega
  · have : (pool false true).data.map Char.toNat
        = List.range' 65 26 ++ List.range' 97 26
          ++ [96, 33, 64, 35, 36, 37, 94, 38, 42, 91, 93, 95, 45, 123, 125, 43, 61] := by
      decide
    rw [this]
    simp only [List.mem_append, List.mem_range'_1]
    simp
    omega
  · have : (pool true false).data.map Char.toNat
        = List.range' 65 26 ++ List.range' 97 26 ++ List.range' 48 10 := by
      decide
    rw [this]
    simp only [List.mem_append, List.mem_range'_1]
    simp
    omega
  · have : (pool true true).data.map Char.toNat
        = List.range' 65 26 ++ List.range' 97 26 ++ List.range' 48 10
          ++ [96, 33, 64, 35, 36, 37, 94, 38, 42, 91, 93, 95, 45, 123, 125, 43, 61] := by
      decide
    rw [this]
    simp only [List.mem_append, List.mem_range'_1]
    simp
    omega


theorem passwordGenerator_eq (w : World) :
    passwordGenerator w
      = { app := { w.app with
                     password := draws (pool w.app.numberAllowed w.app.charAllowed)
                       w.host.random (w.app.length + 1).toNat },
          host := w.host.advance (w.app.length + 1).toNat } := by
  unfold passwordGenerator
  simp only []
  rw [forLoop_eq w.app.length _ (w.app.length + 1).toNat 0 "" w.host (by simp)]
  simp

theorem charAt_subset (str : String) (i : Int) : ∀ c ∈ (charAt str i).data, c ∈ str.data := by
  intro c hc
  unfold charAt at hc
  split at hc
  · split at hc
    · rename_i d hd
      simp [String.singleton] at hc
      subst hc
      exact List.getElem?_mem hd
    · simp at hc
  · simp at hc

theorem draws_subset (str : String) :
    ∀ (m : Nat) (rnd : Nat → ℚ), ∀ c ∈ (draws str rnd m).data, c ∈ str.data := by
  intro m
  induction m with
  | zero => intro rnd c hc; simp [draws] at hc
  | succ m ih =>
    intro rnd c hc
    simp only [draws, String.data_append, List.mem_append] at hc
    rcases hc with hc | hc
    · exact charAt_subset _ _ c hc
    · exact ih _ c hc

theorem unitValue_dyadic (m j : ℕ) (hm : m < 2 ^ j) (hm53 : m < 2 ^ 53) (hj : j ≤ 1074) :
    unitValue ((m : ℚ) / (2 : ℚ) ^ j) := by
  have hp : (0 : ℚ) < (2 : ℚ) ^ j := by positivity
  refine ⟨by positivity, ?_, isBinary64_dyadic m j hm53 hj⟩
  rw [div_lt_one hp]
  exact_mod_cast hm

theorem unitValue_zero : unitValue 0 := by
  have h := unitValue_dyadic 0 0 (by norm_num) (by norm_num) (by norm_num)
  simpa using h

theorem unitValue_half : unitValue (1 / 2) := by
  have h := unitValue_dyadic 1 1 (by norm_num) (by norm_num) (by norm_num)
  simpa using h

theorem unitValue_three_eighths : unitValue (3 / 8) := by
  have h := unitValue_dyadic 3 3 (by norm_num) (by norm_num) (by norm_num)
  norm_num at h
  exact h

theorem unitValue_seven_eighths : unitValue (7 / 8) := by
  have h := unitValue_dyadic 7 3 (by norm_num) (by norm_num) (by norm_num)
  norm_num at h
  exact h

theorem unitValue_pred_one : unitValue (1 - 1 / 2 ^ 53) := by
  have h := unitValue_dyadic (2 ^ 53 - 1) 53 (by norm_num) (by norm_num) (by norm_num)
  have e : (((2 ^ 53 - 1 : ℕ) : ℚ)) / (2 : ℚ) ^ 53 = 1 - 1 / 2 ^ 53 := by norm_num
  rw [e] at h
  exact h

theorem unitValue_tie : unitValue (866076851417403 / 2 ^ 52) := by
  have h := unitValue_dyadic 866076851417403 52 (by norm_num) (by norm_num) (by norm_num)
  have e : ((866076851417403 : ℕ) : ℚ) / (2 : ℚ) ^ 52 = 866076851417403 / 2 ^ 52 := by
    norm_num
  rw [e] at h
  exact h

theorem unitValue_third : unitValue (6004799503160661 / 2 ^ 54) := by
  have h := unitValue_dyadic 6004799503160661 54 (by norm_num) (by norm_num) (by norm_num)
  have e : ((6004799503160661 : ℕ) : ℚ) / (2 : ℚ) ^ 54 = 6004799503160661 / 2 ^ 54 := by
    norm_num
  rw [e] at h
  exact h

theorem binary64_tie : binary64 (866076851417403 / 2 ^ 52 * 52) = 10 := by
  have hx : (866076851417403 / 2 ^ 52 * 52 : ℚ) / (2 : ℚ) ^ ((3 : Int) - 52)
      = ((5629499534213119 : Int) : ℚ) + 1 / 2 := by
    rw [show (3 : Int) - 52 = -((49 : ℕ) : Int) by rfl, zpow_neg, zpow_natCast]
    norm_num
  rw [binary64_eval _ 3 (5629499534213119 + 1) (by decide) (by norm_num)
    (by norm_num) (by rw [hx]; exact roundHalfEven_tie_odd _ (by decide))]
  rw [show (3 : Int) - 52 = -((49 : ℕ) : Int) by rfl, zpow_neg, zpow_natCast]
  norm_num

theorem binary64_third : binary64 (6004799503160661 / 2 ^ 54 * 69) = 23 := by
  have hx : (6004799503160661 / 2 ^ 54 * 69 : ℚ) / (2 : ℚ) ^ ((4 : Int) - 52)
      = ((6473924464345087 : Int) : ℚ) + 41 / 64 := by
    rw [show (4 : Int) - 52 = -((48 : ℕ) : Int) by rfl, zpow_neg, zpow_natCast]
    norm_num
  rw [binary64_eval _ 4 (6473924464345087 + 1) (by decide) (by norm_num)
    (by norm_num) (by rw [hx]; exact roundHalfEven_up _ _ (by norm_num) (by norm_num))]
  rw [show (4 : Int) - 52 = -((48 : ℕ) : Int) by rfl, zpow_neg, zpow_natCast]
  norm_num

theorem constHost_unit (r : ℚ) (hr : unitValue r) : (constHost r).inUnitInterval :=
  fun _ => hr

theorem sampleWorld_unit (length : Int) (n s : Bool) (r : ℚ) (hr : unitValue r) :
    (sampleWorld length n s r).host.inUnitInterval :=
  fun _ => hr

theorem password_spec (w : World) (hr : w.host.inUnitInterval) :
    (passwordGenerator w).app.password.data.length = (w.app.length + 1).toNat ∧
    ∀ i, i < (w.app.length + 1).toNat →
      (passwordGenerator w).app.password.data[i]?
        = (pool w.app.numberAllowed w.app.charAllowed).data[(sampleIndex (w.host.random i)
            (pool w.app.numberAllowed w.app.charAllowed)).toNat]? := by
  rw [passwordGenerator_eq]
  obtain ⟨e, he, hlo, hhi⟩ := pool_window w.app.numberAllowed w.app.charAllowed
  exact draws_spec _ e he hlo hhi _ _ hr

theorem password_subset (w : World) :
    ∀ c ∈ (passwordGenerator w).app.password.data,
      c ∈ (pool w.app.numberAllowed w.app.charAllowed).data := by
  rw [passwordGenerator_eq]
  exact draws_subset _ _ _

/-- The rounded product of a value below 128 has the floor `k` as soon as the
exact product lies in `[k, k + 1 - 2 ^ (-47))`. -/
theorem sampleIndex_eq (r : ℚ) (str : String) (k : ℕ) (hk : k < 128)
    (h0 : (k : ℚ) ≤ r * (str.length : ℚ))
    (h1 : r * (str.length : ℚ) < (k : ℚ) + 1 - 1 / 2 ^ 47) :
    sampleIndex r str = (k : Int) := by
  have hk' : (k : ℚ) + 1 ≤ 128 := by exact_mod_cast hk
  have hx0 : (0 : ℚ) ≤ r * (str.length : ℚ) := le_trans (Nat.cast_nonneg k) h0
  have hpos : (0 : ℚ) < 1 / 2 ^ 47 := by positivity
  have hx128 : r * (str.length : ℚ) < 128 := by linarith
  have h53 : (128 : ℚ) ≤ (2 : ℚ) ^ (53 : ℕ) := by norm_num
  unfold sampleIndex mathFloor times
  rw [Int.floor_eq_iff]
  constructor
  · exact_mod_cast binary64_ge_nat k _ h0 (lt_of_lt_of_le hx128 h53)
  · have := binary64_le_add _ hx0 hx128
    push_cast
    linarith

/-- The index the code computes is the floor of the exact product, or one more. -/
theorem sampleIndex_near_exact (r : ℚ) (str : String) (h0 : 0 ≤ r) (h1 : r < 1)
    (hn : str.length ≤ 79) :
    exactIndex r str ≤ sampleIndex r str ∧ sampleIndex r str ≤ exactIndex r str + 1 := by
  have hnq : (str.length : ℚ) ≤ 79 := by exact_mod_cast hn
  have hn0 : (0 : ℚ) ≤ (str.length : ℚ) := Nat.cast_nonneg _
  have hx0 : (0 : ℚ) ≤ r * (str.length : ℚ) := mul_nonneg h0 hn0
  have hx79 : r * (str.length : ℚ) ≤ 79 := by nlinarith
  have hx128 : r * (str.length : ℚ) < 128 := by linarith
  have h53 : (128 : ℚ) ≤ (2 : ℚ) ^ (53 : ℕ) := by norm_num
  have hf0 : 0 ≤ ⌊r * (str.length : ℚ)⌋ := Int.floor_nonneg.mpr hx0
  obtain ⟨N, hN⟩ := Int.eq_ofNat_of_zero_le hf0
  have hle : ((N : ℕ) : ℚ) ≤ r * (str.length : ℚ) := by
    have := Int.floor_le (r * (str.length : ℚ))
    rw [hN] at this
    exact_mod_cast this
  have hlt : r * (str.length : ℚ) < (N : ℚ) + 1 := by
    have := Int.lt_floor_add_one (r * (str.length : ℚ))
    rw [hN] at this
    exact_mod_cast this
  unfold exactIndex sampleIndex mathFloor times
  rw [hN]
  constructor
  · rw [Int.le_floor]
    exact_mod_cast binary64_ge_nat N _ hle (lt_of_lt_of_le hx128 h53)
  · have hb := binary64_le_add _ hx0 hx128
    have hsmall : (1 : ℚ) / 2 ^ 47 < 1 := by norm_num
    have : ⌊binary64 (r * (str.length : ℚ))⌋ < (N : Int) + 2 := by
      rw [Int.floor_lt]
      push_cast
      linarith
    omega

theorem passwordGenerator_config (w : World) :
    (passwordGenerator w).app.length = w.app.length
      ∧ (passwordGenerator w).app.numberAllowed = w.app.numberAllowed
      ∧ (passwordGenerator w).app.charAllowed = w.app.charAllowed
      ∧ (passwordGenerator w).host.clipboard = w.host.clipboard
      ∧ (passwordGenerator w).host.selection = w.host.selection
      ∧ (passwordGenerator w).host.random
          = fun k => w.host.random (k + (w.app.length + 1).toNat) := by
  rw [passwordGenerator_eq]
  exact ⟨rfl, rfl, rfl, rfl, rfl, rfl⟩

theorem passwordGenerator_consistent (w : World) (hv : w.app.valid) (hr : w.host.inUnitInterval) :
    (passwordGenerator w).app.valid ∧ (passwordGenerator w).host.inUnitInterval
      ∧ (passwordGenerator w).consistent := by
  obtain ⟨hl, hn, hs, _, _, hrand⟩ := passwordGenerator_config w
  have hlen := (password_spec w hr).1
  have h6 := hv.1
  refine ⟨?_, ?_, ?_, ?_⟩
  · unfold AppState.valid
    rw [hl]
    exact hv
  · intro k
    rw [hrand]
    exact hr _
  · rw [hl]
    simp only [String.length, hlen]
    omega
  · rw [hn, hs]
    exact password_subset w

theorem step_regenerates (w : World) (e : Event) (hc : e.changesConfig w.app) :
    step w e = passwordGenerator { w with app := handler e w.app } := by
  cases e with
  | setLength v =>
    have hne : ¬ (w.app.length = v) := fun h => hc h.symm
    simp [step, useEffect, handler, hne]
  | toggleNumber => simp [step, useEffect, handler]
  | toggleChar => simp [step, useEffect, handler]
  | copy => exact absurd hc (by simp [Event.changesConfig])

theorem step_idle (w : World) (e : Event) (hc : ¬ e.changesConfig w.app) :
    (step w e).app = w.app ∧ (step w e).host.random = w.host.random := by
  cases e with
  | setLength v =>
    have he : v = w.app.length := by
      by_contra h
      exact hc h
    subst he
    simp [step, useEffect, handler]
  | toggleNumber => exact absurd trivial hc
  | toggleChar => exact absurd trivial hc
  | copy => exact ⟨rfl, rfl⟩

theorem handler_valid (a : AppState) (e : Event) (hv : a.valid) (he : e.valid = true) :
    (handler e a).valid := by
  cases e with
  | setLength v =>
    simp only [Event.valid, Bool.and_eq_true, decide_eq_true_eq] at he
    exact he
  | toggleNumber => exact hv
  | toggleChar => exact hv
  | copy => exact hv

theorem step_consistent (w : World) (e : Event) (he : e.valid = true)
    (hv : w.app.valid) (hr : w.host.inUnitInterval) (hc : w.consistent) :
    (step w e).app.valid ∧ (step w e).host.inUnitInterval ∧ (step w e).consistent := by
  by_cases hch : e.changesConfig w.app
  · rw [step_regenerates w e hch]
    exact passwordGenerator_consistent _ (handler_valid _ _ hv he) hr
  · obtain ⟨ha, hrand⟩ := step_idle w e hch
    refine ⟨ha ▸ hv, ?_, ?_⟩
    · intro k
      rw [hrand]
      exact hr k
    · unfold World.consistent
      rw [ha]
      exact hc

theorem foldl_consistent (es : List Event) :
    ∀ w : World, (∀ e ∈ es, e.valid = true) → w.app.valid → w.host.inUnitInterval → w.consistent →
      (es.foldl step w).app.valid ∧ (es.foldl step w).host.inUnitInterval
        ∧ (es.foldl step w).consistent := by
  induction es with
  | nil => intro w _ hv hr hc; exact ⟨hv, hr, hc⟩
  | cons e es ih =>
    intro w hes hv hr hc
    obtain ⟨hv1, hr1, hc1⟩ := step_consistent w e (hes e (List.mem_cons_self _ _)) hv hr hc
    exact ih (step w e) (fun x hx => hes x (List.mem_cons_of_mem _ hx)) hv1 hr1 hc1

theorem run_consistent (h : Host) (hr : h.inUnitInterval) (es : List Event)
    (hes : ∀ e ∈ es, e.valid = true) :
    (run h es).app.valid ∧ (run h es).host.inUnitInterval ∧ (run h es).consistent := by
  obtain ⟨hv0, hr0, hc0⟩ :=
    passwordGenerator_consistent { app := initialApp, host := h }
      (show initialApp.valid by decide) hr
  exact foldl_consistent es (mount h) hes hv0 hr0 hc0


/-! ## The claims -/

/-- C1. For every valid configuration (`6 ≤ length ≤ 100`, any options) and
every random source with values in `[0, 1)` (binary64 values, as
`Math.random()` returns them), the password stored by `passwordGenerator` has
exactly `length + 1` characters. -/
theorem passwordGenerator_length (w : World) (hv : w.app.valid) (hr : w.host.inUnitInterval) :
    ((passwordGenerator w).app.password.length : Int) = w.app.length + 1 := by
  have h := (password_spec w hr).1
  obtain ⟨h6, _⟩ := hv
  simp only [String.length, h]
  omega

/-- Witness for C1: length 6 gives 7 characters. -/
theorem passwordGenerator_length_witness :
    (sampleWorld 6 false false (3 / 8)).app.valid
      ∧ (sampleWorld 6 false false (3 / 8)).host.inUnitInterval
      ∧ ((passwordGenerator (sampleWorld 6 false false (3 / 8))).app.password.length : Int)
          = 6 + 1 :=
  ⟨by decide, sampleWorld_unit _ _ _ _ unitValue_three_eighths,
   passwordGenerator_length (sampleWorld 6 false false (3 / 8)) (by decide)
     (sampleWorld_unit _ _ _ _ unitValue_three_eighths)⟩

/-- C2. Every character of the password stored by `passwordGenerator` belongs to
the pool of the same configuration (whatever the random source returns, in
particular for values in `[0, 1)`): with both options off it is a letter, with
only `numberAllowed` a letter or a digit, with only `charAllowed` a letter or one
of the seventeen listed symbols. -/
theorem passwordGenerator_chars_in_pool (w : World) (c : Char)
    (hc : c ∈ (passwordGenerator w).app.password.data) :
    c ∈ (pool w.app.numberAllowed w.app.charAllowed).data
      ∧ (w.app.numberAllowed = false → w.app.charAllowed = false → asciiLetter c)
      ∧ (w.app.numberAllowed = true → w.app.charAllowed = false →
          asciiLetter c ∨ asciiDigit c)
      ∧ (w.app.numberAllowed = false → w.app.charAllowed = true →
          asciiLetter c ∨ listedSymbol c) := by
  have hp := password_subset w c hc
  have hm := (mem_pool_iff w.app.numberAllowed w.app.charAllowed c).mp hp
  refine ⟨hp, ?_, ?_, ?_⟩
  · intro hn hs
    simpa [hn, hs] using hm
  · intro hn hs
    simpa [hn, hs] using hm
  · intro hn hs
    simpa [hn, hs] using hm

/-- Witness for C2: length 8 with digits only and random value `7/8` throughout
gives a password whose first character is the digit `2`. -/
theorem passwordGenerator_chars_in_pool_witness :
    '2' ∈ (passwordGenerator (sampleWorld 8 true false (7 / 8))).app.password.data
      ∧ '2' ∈ (pool true false).data
      ∧ (asciiLetter '2' ∨ asciiDigit '2') :=
  have hmem : '2'
      ∈ (passwordGenerator (sampleWorld 8 true false (7 / 8))).app.password.data := by
    have hs := (password_spec (sampleWorld 8 true false (7 / 8))
      (sampleWorld_unit _ _ _ _ unitValue_seven_eighths)).2 0 (by decide)
    have hi : sampleIndex (7 / 8) (pool true false) = ((54 : ℕ) : Int) := by
      apply sampleIndex_eq _ _ 54 (by norm_num) <;> rw [pool_length] <;> norm_num
    have hi2 : sampleIndex ((sampleWorld 8 true false (7 / 8)).host.random 0)
        (pool (sampleWorld 8 true false (7 / 8)).app.numberAllowed
          (sampleWorld 8 true false (7 / 8)).app.charAllowed) = ((54 : ℕ) : Int) := hi
    rw [hi2] at hs
    exact List.getElem?_mem (hs.trans (by decide))
  have h := passwordGenerator_chars_in_pool (sampleWorld 8 true false (7 / 8)) '2' hmem
  ⟨hmem, h.1, h.2.2.1 rfl rfl⟩

/-- C3. As a set the pool is exactly the ASCII letters, together with the ten
digits if and only if `numberAllowed`, together with the seventeen listed
symbols if and only if `charAllowed`; no character is repeated, and the pool
has 52, 62, 69 or 79 characters according to the options. -/
theorem pool_composition (numberAllowed charAllowed : Bool) :
    (∀ c : Char, c ∈ (pool numberAllowed charAllowed).data ↔
        asciiLetter c ∨ (numberAllowed = true ∧ asciiDigit c)
          ∨ (charAllowed = true ∧ listedSymbol c))
      ∧ (∀ c : Char, asciiDigit c →
          (c ∈ (pool numberAllowed charAllowed).data ↔ numberAllowed = true))
      ∧ (∀ c : Char, listedSymbol c →
          (c ∈ (pool numberAllowed charAllowed).data ↔ charAllowed = true))
      ∧ (∀ c : Char, c ∈ (pool false false).data ↔ asciiLetter c)
      ∧ (pool numberAllowed charAllowed).data.Nodup
      ∧ (pool false false).length = 52
      ∧ (pool true false).length = 62
      ∧ (pool false true).length = 69
      ∧ (pool true true).length = 79 := by
  refine ⟨mem_pool_iff numberAllowed charAllowed, ?_, ?_, ?_,
    pool_nodup numberAllowed charAllowed, by decide, by decide, by decide, by decide⟩
  · intro c hd
    rw [mem_pool_iff]
    unfold asciiDigit at hd
    unfold asciiLetter listedSymbol asciiDigit
    simp only [List.mem_cons, List.mem_singleton, List.not_mem_nil, or_false]
    constructor
    · rintro (h | h | h)
      · omega
      · exact h.1
      · omega
    · intro h
      exact Or.inr (Or.inl ⟨h, hd⟩)
  · intro c hs
    rw [mem_pool_iff]
    unfold listedSymbol at hs
    unfold asciiLetter listedSymbol asciiDigit
    simp only [List.mem_cons, List.mem_singleton, List.not_mem_nil, or_false] at hs ⊢
    constructor
    · rintro (h | h | h)
      · omega
      · omega
      · exact h.1
    · intro h
      exact Or.inr (Or.inr ⟨h, hs⟩)
  · intro c
    rw [mem_pool_iff]
    simp

/-- C6. For every configuration the pool is non-empty, and for every random
value `r` with `0 ≤ r < 1` the index `floor (r * pool.length)` lies in
`[0, pool.length)`: this holds for the exact product and, `r` being a binary64
value, for the rounded product that line 42 computes, so the `charAt` lookup
returns exactly one character of the pool, never the empty string. -/
theorem sampleIndex_in_range (numberAllowed charAllowed : Bool) (r : ℚ)
    (h0 : 0 ≤ r) (h1 : r < 1) :
    0 < (pool numberAllowed charAllowed).length
      ∧ (0 ≤ exactIndex r (pool numberAllowed charAllowed)
          ∧ exactIndex r (pool numberAllowed charAllowed)
              < (pool numberAllowed charAllowed).length)
      ∧ (isBinary64 r →
          0 ≤ sampleIndex r (pool numberAllowed charAllowed)
            ∧ sampleIndex r (pool numberAllowed charAllowed)
                < (pool numberAllowed charAllowed).length
            ∧ ∃ c, (pool numberAllowed charAllowed).data[
                      (sampleIndex r (pool numberAllowed charAllowed)).toNat]? = some c
                ∧ charAt (pool numberAllowed charAllowed)
                      (sampleIndex r (pool numberAllowed charAllowed))
                    = String.singleton c) := by
  have hpos := pool_pos numberAllowed charAllowed
  have hn : (0 : ℚ) < ((pool numberAllowed charAllowed).length : ℚ) := by exact_mod_cast hpos
  refine ⟨hpos, ⟨?_, ?_⟩, ?_⟩
  · exact Int.floor_nonneg.mpr (mul_nonneg h0 hn.le)
  · unfold exactIndex
    rw [Int.floor_lt]
    have : r * ((pool numberAllowed charAllowed).length : ℚ)
        < 1 * ((pool numberAllowed charAllowed).length : ℚ) := mul_lt_mul_of_pos_right h1 hn
    simpa using this
  · intro hd
    obtain ⟨ha, hb⟩ := pool_sampleIndex_range numberAllowed charAllowed r ⟨h0, h1, hd⟩
    exact ⟨ha, hb, charAt_of_range _ _ ha hb⟩

/-- Witness for C6: the largest pool and the largest binary64 value below one. -/
theorem sampleIndex_in_range_witness :
    (0 : ℚ) ≤ 1 - 1 / 2 ^ 53 ∧ (1 - 1 / 2 ^ 53 : ℚ) < 1 ∧ isBinary64 (1 - 1 / 2 ^ 53)
      ∧ 0 ≤ sampleIndex (1 - 1 / 2 ^ 53) (pool true true)
      ∧ sampleIndex (1 - 1 / 2 ^ 53) (pool true true) < (pool true true).length :=
  have h := (sampleIndex_in_range true true (1 - 1 / 2 ^ 53) unitValue_pred_one.1
    unitValue_pred_one.2.1).2.2 unitValue_pred_one.2.2
  ⟨unitValue_pred_one.1, unitValue_pred_one.2.1, unitValue_pred_one.2.2, h.1, h.2.1⟩


/-- C8 as stated fails when `floor (r_i * pool.length)` is the floor of the
exact product.  On the initial configuration (length 8, both options off, 52
letters) with the binary64 value `866076851417403 / 2 ^ 52` as every random
value, the exact product is `10 - 2 ^ (-50)` with floor 9 (the letter `J`), but
the product line 42 computes rounds to 10 and the password starts with `K`. -/
theorem passwordGenerator_characters_exact_product_fails :
    (0 : Int) ≤ (sampleWorld 8 false false (866076851417403 / 2 ^ 52)).app.length
      ∧ (sampleWorld 8 false false (866076851417403 / 2 ^ 52)).host.inUnitInterval
      ∧ (pool false false).data[
            (exactIndex ((sampleWorld 8 false false (866076851417403 / 2 ^ 52)).host.random 0)
              (pool false false)).toNat]? = some 'J'
      ∧ (passwordGenerator
            (sampleWorld 8 false false (866076851417403 / 2 ^ 52))).app.password.data[0]?
          = some 'K' := by
  have hu := sampleWorld_unit 8 false false (866076851417403 / 2 ^ 52) unitValue_tie
  refine ⟨by decide, hu, ?_, ?_⟩
  · have he : exactIndex ((sampleWorld 8 false false (866076851417403 / 2 ^ 52)).host.random 0)
        (pool false false) = 9 := by
      show ⌊(866076851417403 / 2 ^ 52 : ℚ) * ((pool false false).length : ℚ)⌋ = 9
      rw [pool_length, Int.floor_eq_iff]
      constructor <;> norm_num
    rw [he]
    decide
  · have hs := (password_spec (sampleWorld 8 false false (866076851417403 / 2 ^ 52)) hu).2 0
      (by decide)
    have hi : sampleIndex (866076851417403 / 2 ^ 52) (pool false false) = 10 := by
      unfold sampleIndex mathFloor times
      rw [pool_length]
      have e : ((52 + (if false = true then 10 else 0) + (if false = true then 17 else 0) : ℕ)
          : ℚ) = 52 := by norm_num
      rw [e, binary64_tie]
      norm_num
    have hi2 : sampleIndex
        ((sampleWorld 8 false false (866076851417403 / 2 ^ 52)).host.random 0)
        (pool (sampleWorld 8 false false (866076851417403 / 2 ^ 52)).app.numberAllowed
          (sampleWorld 8 false false (866076851417403 / 2 ^ 52)).app.charAllowed) = 10 := hi
    rw [hi2] at hs
    exact hs.trans (by decide)

/-- C8, amended. For every configuration with `length ≥ 0` and every random
source of binary64 values in `[0, 1)`, the password stored by
`passwordGenerator` has `length + 1` characters and its `i`-th character, for
`i = 0 .. length`, is the pool character at index `Math.floor(r_i * pool.length)`,
the product being the binary64 product line 42 computes; that index is the
floor of the exact product or one more.  The call consumes exactly the
`length + 1` random values `r_0 .. r_length`. -/
theorem passwordGenerator_characters (w : World) (hlen : 0 ≤ w.app.length)
    (hr : w.host.inUnitInterval) :
    ((passwordGenerator w).app.password.length : Int) = w.app.length + 1
      ∧ (∀ i : Nat, (i : Int) ≤ w.app.length →
          (∃ c, (pool w.app.numberAllowed w.app.charAllowed).data[
                (mathFloor (times (w.host.random i)
                  ((pool w.app.numberAllowed w.app.charAllowed).length : ℚ))).toNat]? = some c
            ∧ (passwordGenerator w).app.password.data[i]? = some c)
          ∧ exactIndex (w.host.random i) (pool w.app.numberAllowed w.app.charAllowed)
              ≤ mathFloor (times (w.host.random i)
                  ((pool w.app.numberAllowed w.app.charAllowed).length : ℚ))
          ∧ mathFloor (times (w.host.random i)
                ((pool w.app.numberAllowed w.app.charAllowed).length : ℚ))
              ≤ exactIndex (w.host.random i) (pool w.app.numberAllowed w.app.charAllowed) + 1)
      ∧ (passwordGenerator w).host.random
          = fun k => w.host.random (k + (w.app.length + 1).toNat) := by
  obtain ⟨hl, hg⟩ := password_spec w hr
  refine ⟨?_, ?_, ?_⟩
  · simp only [String.length, hl]
    omega
  · intro i hi
    obtain ⟨ha, hb⟩ := pool_sampleIndex_range w.app.numberAllowed w.app.charAllowed
      (w.host.random i) (hr i)
    obtain ⟨c, hc, _⟩ := charAt_of_range _ _ ha hb
    obtain ⟨hn1, hn2⟩ := sampleIndex_near_exact (w.host.random i)
      (pool w.app.numberAllowed w.app.charAllowed) (hr i).1 (hr i).2.1 (pool_le _ _)
    exact ⟨⟨c, hc, (hg i (by omega)).trans hc⟩, hn1, hn2⟩
  · rw [passwordGenerator_eq]
    rfl

/-- Witness for C8: length 10 with symbols only and random value `1/2`
throughout; the product `69 / 2` is exact, the index is 34 and the password is
eleven times the letter `i`. -/
theorem passwordGenerator_characters_witness :
    (0 : Int) ≤ (sampleWorld 10 false true (1 / 2)).app.length
      ∧ (sampleWorld 10 false true (1 / 2)).host.inUnitInterval
      ∧ ((passwordGenerator (sampleWorld 10 false true (1 / 2))).app.password.length : Int)
          = 10 + 1
      ∧ ∀ i : Nat, i ≤ 10 →
          (passwordGenerator (sampleWorld 10 false true (1 / 2))).app.password.data[i]?
            = some 'i' := by
  have hu := sampleWorld_unit 10 false true (1 / 2) unitValue_half
  have h := passwordGenerator_characters (sampleWorld 10 false true (1 / 2)) (by decide) hu
  refine ⟨by decide, hu, h.1, fun i hi => ?_⟩
  obtain ⟨⟨c, hc, hp⟩, _, _⟩ := h.2.1 i (by
    show (i : Int) ≤ 10
    omega)
  have hi : mathFloor (times ((sampleWorld 10 false true (1 / 2)).host.random i)
      ((pool (sampleWorld 10 false true (1 / 2)).app.numberAllowed
          (sampleWorld 10 false true (1 / 2)).app.charAllowed).length : ℚ))
        = ((34 : ℕ) : Int) := by
    apply sampleIndex_eq (1 / 2) (pool false true) 34 (by norm_num) <;> rw [pool_length] <;>
      norm_num
  rw [hi] at hc
  have hc2 : some 'i' = some c := hc
  rw [hp, hc2]

/-- C9. The result is not a function of the configuration: for every valid
configuration there are two random sources with (binary64) values in `[0, 1)`
for which `passwordGenerator`, run on that same configuration, stores
different passwords. -/
theorem passwordGenerator_not_deterministic (a : AppState) (h : Host) (hv : a.valid) :
    ∃ r1 r2 : Nat → ℚ,
      (∀ k, 0 ≤ r1 k ∧ r1 k < 1 ∧ isBinary64 (r1 k))
      ∧ (∀ k, 0 ≤ r2 k ∧ r2 k < 1 ∧ isBinary64 (r2 k))
      ∧ (passwordGenerator { app := a, host := { h with random := r1 } }).app.password
          ≠ (passwordGenerator { app := a, host := { h with random := r2 } }).app.password := by
  refine ⟨fun _ => 0, fun _ => 1 / 2, fun _ => unitValue_zero, fun _ => unitValue_half, ?_⟩
  intro heq
  obtain ⟨h6, _⟩ := hv
  have hpos : 0 < (a.length + 1).toNat := by omega
  have e1 := (password_spec { app := a, host := { h with random := fun _ => 0 } }
    (fun _ => unitValue_zero)).2 0 hpos
  have e2 := (password_spec { app := a, host := { h with random := fun _ => 1 / 2 } }
    (fun _ => unitValue_half)).2 0 hpos
  rw [heq] at e1
  rw [e1] at e2
  simp only [] at e2
  have z : sampleIndex 0 (pool a.numberAllowed a.charAllowed) = ((0 : ℕ) : Int) := by
    apply sampleIndex_eq _ _ 0 (by norm_num) <;> norm_num
  rw [z] at e2
  revert e2
  cases a.numberAllowed <;> cases a.charAllowed
  · have hi : sampleIndex (1 / 2) (pool false false) = ((26 : ℕ) : Int) := by
      apply sampleIndex_eq _ _ 26 (by norm_num) <;> rw [pool_length] <;> norm_num
    rw [hi]; decide
  · have hi : sampleIndex (1 / 2) (pool false true) = ((34 : ℕ) : Int) := by
      apply sampleIndex_eq _ _ 34 (by norm_num) <;> rw [pool_length] <;> norm_num
    rw [hi]; decide
  · have hi : sampleIndex (1 / 2) (pool true false) = ((31 : ℕ) : Int) := by
      apply sampleIndex_eq _ _ 31 (by norm_num) <;> rw [pool_length] <;> norm_num
    rw [hi]; decide
  · have hi : sampleIndex (1 / 2) (pool true true) = ((39 : ℕ) : Int) := by
      apply sampleIndex_eq _ _ 39 (by norm_num) <;> rw [pool_length] <;> norm_num
    rw [hi]; decide

/-- Witness for C9: the initial configuration (length 8, both options off). -/
theorem passwordGenerator_not_deterministic_witness :
    initialApp.valid
      ∧ ∃ r1 r2 : Nat → ℚ,
        (∀ k, 0 ≤ r1 k ∧ r1 k < 1 ∧ isBinary64 (r1 k))
        ∧ (∀ k, 0 ≤ r2 k ∧ r2 k < 1 ∧ isBinary64 (r2 k))
        ∧ (passwordGenerator
              { app := initialApp, host := { constHost 0 with random := r1 } }).app.password
            ≠ (passwordGenerator
              { app := initialApp, host := { constHost 0 with random := r2 } }).app.password :=
  ⟨by decide, passwordGenerator_not_deterministic initialApp (constHost 0) (by decide)⟩

theorem sampleIndex_inner (str : String) (hpos : 0 < str.length) (hn : str.length ≤ 79)
    (k : ℕ) (hk : k < str.length) (r : ℚ)
    (h1 : (k : ℚ) / (str.length : ℚ) ≤ r)
    (h2 : r < ((k : ℚ) + 1 - 1 / 2 ^ 47) / (str.length : ℚ)) :
    0 ≤ r ∧ r < 1 ∧ sampleIndex r str = (k : Int) := by
  have hnq : (0 : ℚ) < (str.length : ℚ) := by exact_mod_cast hpos
  have hkq : (k : ℚ) + 1 ≤ (str.length : ℚ) := by exact_mod_cast hk
  rw [div_le_iff₀ hnq] at h1
  rw [lt_div_iff₀ hnq] at h2
  have hsmall : (0 : ℚ) < 1 / 2 ^ 47 := by positivity
  refine ⟨?_, ?_, sampleIndex_eq r str k (by omega) h1 h2⟩
  · by_contra hneg
    have : r * (str.length : ℚ) < 0 := mul_neg_of_neg_of_pos (not_le.mp hneg) hnq
    have : (0 : ℚ) ≤ (k : ℚ) := Nat.cast_nonneg k
    linarith
  · by_contra hge
    have : 1 * (str.length : ℚ) ≤ r * (str.length : ℚ) :=
      mul_le_mul_of_nonneg_right (not_lt.mp hge) hnq.le
    linarith

theorem sampleIndex_outer (str : String) (hpos : 0 < str.length) (hn : str.length ≤ 79)
    (k : ℕ) (r : ℚ) (h0 : 0 ≤ r) (h1 : r < 1) (hi : sampleIndex r str = (k : Int)) :
    ((k : ℚ) - 1 / 2 ^ 47) / (str.length : ℚ) ≤ r ∧ r < ((k : ℚ) + 1) / (str.length : ℚ) := by
  have hnq : (0 : ℚ) < (str.length : ℚ) := by exact_mod_cast hpos
  have hn79 : (str.length : ℚ) ≤ 79 := by exact_mod_cast hn
  have hx0 : (0 : ℚ) ≤ r * (str.length : ℚ) := mul_nonneg h0 hnq.le
  have hx79 : r * (str.length : ℚ) < 79 := by nlinarith
  have hx128 : r * (str.length : ℚ) < 128 := by linarith
  have h53 : (128 : ℚ) ≤ (2 : ℚ) ^ (53 : ℕ) := by norm_num
  unfold sampleIndex mathFloor times at hi
  rw [Int.floor_eq_iff] at hi
  obtain ⟨hlo, hhi⟩ := hi
  push_cast at hlo hhi
  rw [div_le_iff₀ hnq, lt_div_iff₀ hnq]
  constructor
  · have := binary64_le_add _ hx0 hx128
    linarith
  · by_contra hge
    have hle : (((k + 1 : ℕ) : ℚ)) ≤ r * (str.length : ℚ) := by
      push_cast
      exact not_lt.mp hge
    have := binary64_ge_nat (k + 1) _ hle (lt_of_lt_of_le hx128 h53)
    push_cast at this
    linarith

/-- A binary64 value in `[0, 1)` whose index is `k`: the multiple of `1/256`
next above `k / n`. -/
theorem sampleIndex_attained (str : String) (hpos : 0 < str.length) (hn : str.length ≤ 79)
    (k : ℕ) (hk : k < str.length) :
    ∃ r : ℚ, unitValue r ∧ sampleIndex r str = (k : Int) := by
  generalize hlen : str.length = n at hpos hn hk
  have hdm := Nat.div_add_mod (k * 256 + (n - 1)) n
  have hmod := Nat.mod_lt (k * 256 + (n - 1)) hpos
  generalize (k * 256 + (n - 1)) / n = m at hdm
  generalize (k * 256 + (n - 1)) % n = t at hdm hmod
  have hlo : k * 256 ≤ n * m := by omega
  have hhi : n * m ≤ k * 256 + (n - 1) := by omega
  have hm : m < 2 ^ 8 := by
    by_contra hge
    have h256 : 256 ≤ m := by
      have : ¬ m < 256 := hge
      omega
    have : n * 256 ≤ n * m := Nat.mul_le_mul_left n h256
    omega
  have hnq : (0 : ℚ) < (n : ℚ) := by exact_mod_cast hpos
  have hloq : (k : ℚ) * 256 ≤ (n : ℚ) * (m : ℚ) := by exact_mod_cast hlo
  have hhiq : (n : ℚ) * (m : ℚ) ≤ (k : ℚ) * 256 + 78 := by
    have h78 : n * m ≤ k * 256 + 78 := by omega
    exact_mod_cast h78
  refine ⟨(m : ℚ) / (2 : ℚ) ^ 8,
    unitValue_dyadic m 8 hm (lt_trans hm (by norm_num)) (by norm_num), ?_⟩
  apply sampleIndex_eq _ str k (by omega)
  · rw [hlen]
    have e : (m : ℚ) / (2 : ℚ) ^ 8 * (n : ℚ) = (n : ℚ) * (m : ℚ) / 256 := by
      norm_num
      ring
    rw [e, le_div_iff₀ (by norm_num)]
    exact hloq
  · rw [hlen]
    have e : (m : ℚ) / (2 : ℚ) ^ 8 * (n : ℚ) = (n : ℚ) * (m : ℚ) / 256 := by
      norm_num
      ring
    rw [e, div_lt_iff₀ (by norm_num)]
    have : ((k : ℚ) + 1 - 1 / 2 ^ 47) * 256 = (k : ℚ) * 256 + 256 - 256 / 2 ^ 47 := by ring
    rw [this]
    have : (256 : ℚ) / 2 ^ 47 < 1 := by norm_num
    linarith

/-- C10 as stated fails: the values with a given index are not exactly an
interval `[k/n, (k+1)/n)`.  For the 69-character pool (letters and symbols) the
binary64 value nearest to `1/3`, `6004799503160661 / 2 ^ 54`, lies in
`[22/69, 23/69)`, yet line 42 computes index 23, not 22: the product
`23 - 23 / 2 ^ 54` rounds to 23. -/
theorem sampleIndex_interval_fails :
    unitValue (6004799503160661 / 2 ^ 54)
      ∧ (22 : ℚ) / ((pool false true).length : ℚ) ≤ 6004799503160661 / 2 ^ 54
      ∧ (6004799503160661 / 2 ^ 54 : ℚ) < (22 + 1) / ((pool false true).length : ℚ)
      ∧ exactIndex (6004799503160661 / 2 ^ 54) (pool false true) = 22
      ∧ sampleIndex (6004799503160661 / 2 ^ 54) (pool false true) = 23 := by
  have hl : ((pool false true).length : ℚ) = 69 := by
    rw [pool_length]
    norm_num
  refine ⟨unitValue_third, ?_, ?_, ?_, ?_⟩
  · rw [hl]
    norm_num
  · rw [hl]
    norm_num
  · unfold exactIndex
    rw [hl, Int.floor_eq_iff]
    constructor <;> norm_num
  · unfold sampleIndex mathFloor times
    rw [hl, binary64_third]
    norm_num

/-- C10, amended. Index selection is uniform up to binary64 rounding.  For the
pool `str` of a configuration, `n = str.length` and every `k < n`: every
value `r` with `k/n ≤ r < (k + 1 - 2 ^ (-47))/n` lies in `[0, 1)` and gives index
`k`; every `r` in `[0, 1)` that gives index `k` satisfies
`(k - 2 ^ (-47))/n ≤ r < (k + 1)/n`; the pool characters being pairwise
distinct, the binary64 values in `[0, 1)` that sample the character `str[k]` are
exactly those with index `k`; and `str[k]` can occur at every position of the
password. -/
theorem sampleIndex_uniform (w : World) (k : Nat)
    (hk : k < (pool w.app.numberAllowed w.app.charAllowed).length) :
    (∀ r : ℚ,
        (k : ℚ) / ((pool w.app.numberAllowed w.app.charAllowed).length : ℚ) ≤ r →
        r < ((k : ℚ) + 1 - 1 / 2 ^ 47)
              / ((pool w.app.numberAllowed w.app.charAllowed).length : ℚ) →
        0 ≤ r ∧ r < 1
          ∧ sampleIndex r (pool w.app.numberAllowed w.app.charAllowed) = (k : Int))
      ∧ (∀ r : ℚ, 0 ≤ r → r < 1 →
          sampleIndex r (pool w.app.numberAllowed w.app.charAllowed) = (k : Int) →
          ((k : ℚ) - 1 / 2 ^ 47)
                / ((pool w.app.numberAllowed w.app.charAllowed).length : ℚ) ≤ r
            ∧ r < ((k : ℚ) + 1)
                / ((pool w.app.numberAllowed w.app.charAllowed).length : ℚ))
      ∧ (∃ c, (pool w.app.numberAllowed w.app.charAllowed).data[k]? = some c
          ∧ (∀ r : ℚ, unitValue r →
              (charAt (pool w.app.numberAllowed w.app.charAllowed)
                    (sampleIndex r (pool w.app.numberAllowed w.app.charAllowed))
                  = String.singleton c
                ↔ sampleIndex r (pool w.app.numberAllowed w.app.charAllowed) = (k : Int)))
          ∧ (∀ i : Nat, (i : Int) ≤ w.app.length →
              ∃ rnd : Nat → ℚ, (∀ j, unitValue (rnd j))
                ∧ (passwordGenerator
                    { w with host := { w.host with random := rnd } }).app.password.data[i]?
                  = some c)) := by
  have hpos := pool_pos w.app.numberAllowed w.app.charAllowed
  have hn := pool_le w.app.numberAllowed w.app.charAllowed
  have hnd := pool_nodup w.app.numberAllowed w.app.charAllowed
  obtain ⟨e, he, hlo, hhi⟩ := pool_window w.app.numberAllowed w.app.charAllowed
  generalize hstr : pool w.app.numberAllowed w.app.charAllowed = str at *
  have hkd : k < str.data.length := hk
  refine ⟨fun r h1 h2 => sampleIndex_inner str hpos hn k hk r h1 h2,
    fun r h0 h1 hi => sampleIndex_outer str hpos hn k r h0 h1 hi,
    str.data[k], List.getElem?_eq_getElem hkd, ?_, ?_⟩
  · intro r hr
    obtain ⟨ha, hb⟩ := sampleIndex_range r str hr e he hlo hhi
    obtain ⟨d, hd, hat⟩ := charAt_of_range str _ ha hb
    have hlt : (sampleIndex r str).toNat < str.data.length := by
      have : (sampleIndex r str).toNat < str.length := by omega
      exact this
    rw [List.getElem?_eq_getElem hlt] at hd
    rw [hat]
    constructor
    · intro hc
      have hdc : d = str.data[k] := by
        have := congrArg String.data hc
        simpa [String.singleton] using this
      rw [hdc] at hd
      have := (List.Nodup.getElem_inj_iff hnd).mp (Option.some.inj hd)
      omega
    · intro hi
      have hik : (sampleIndex r str).toNat = k := by omega
      have : str.data[(sampleIndex r str).toNat] = str.data[k] := by
        simp only [hik]
      rw [← Option.some.inj hd, this]
  · intro i hi
    obtain ⟨r, hr, hidx⟩ := sampleIndex_attained str hpos hn k hk
    refine ⟨fun _ => r, fun _ => hr, ?_⟩
    have hi2 : i < (w.app.length + 1).toNat := by omega
    have hs := (password_spec { w with host := { w.host with random := fun _ => r } }
      (fun _ => hr)).2 i hi2
    simp only [] at hs
    rw [hstr, hidx] at hs
    rw [hs]
    simp [List.getElem?_eq_getElem hkd]

/-- Witness for C10: index 61 (the digit `9`) of the letters-and-digits pool;
the value `63/64` lies in the inner interval and gives index 61. -/
theorem sampleIndex_uniform_witness :
    61 < (pool (sampleWorld 8 true false 0).app.numberAllowed
            (sampleWorld 8 true false 0).app.charAllowed).length
      ∧ sampleIndex (63 / 64) (pool true false) = 61 := by
  have h := (sampleIndex_uniform (sampleWorld 8 true false 0) 61 (by decide)).1 (63 / 64)
  have hl : (pool (sampleWorld 8 true false 0).app.numberAllowed
      (sampleWorld 8 true false 0).app.charAllowed) = pool true false := rfl
  rw [hl, pool_length] at h
  exact ⟨by decide, (h (by norm_num) (by norm_num)).2.2⟩

/-- C4. Mounting and every configuration-changing event run `passwordGenerator`
exactly once on the updated configuration (one call, consuming `length + 1`
random values for the new `length`); an event that changes no configuration
field runs it not at all.  Hence, on a host whose random source returns
binary64 values in `[0, 1)`, in every state reachable from a mount by events of
the controls the password has `length + 1` characters, all in the pool of the
current options.  In particular switching `numberAllowed` from off to on
keeps `length` and yields a password of `length + 1` characters generated from a
pool that contains every digit. -/
theorem reactive_regeneration (h : Host) (hr : h.inUnitInterval) (es : List Event)
    (hes : ∀ e ∈ es, e.valid = true) :
    (mount h = passwordGenerator { app := initialApp, host := h }
        ∧ (mount h).host.random = fun k => h.random (k + 9))
      ∧ (∀ e : Event, e.changesConfig (run h es).app →
          step (run h es) e
              = passwordGenerator { run h es with app := handler e (run h es).app }
            ∧ (step (run h es) e).host.random
              = fun k => (run h es).host.random
                  (k + ((handler e (run h es).app).length + 1).toNat))
      ∧ (∀ e : Event, ¬ e.changesConfig (run h es).app →
          (step (run h es) e).app = (run h es).app
            ∧ (step (run h es) e).host.random = (run h es).host.random)
      ∧ ((run h es).app.valid ∧ (run h es).consistent)
      ∧ ((run h es).app.numberAllowed = false →
          (step (run h es) Event.toggleNumber).app.numberAllowed = true
            ∧ (step (run h es) Event.toggleNumber).app.charAllowed = (run h es).app.charAllowed
            ∧ (step (run h es) Event.toggleNumber).app.length = (run h es).app.length
            ∧ ((step (run h es) Event.toggleNumber).app.password.length : Int)
                = (run h es).app.length + 1
            ∧ (∀ c ∈ (step (run h es) Event.toggleNumber).app.password.data,
                c ∈ (pool true (run h es).app.charAllowed).data)
            ∧ (∀ c : Char, asciiDigit c → c ∈ (pool true (run h es).app.charAllowed).data)) := by
  obtain ⟨hv, hu, hc⟩ := run_consistent h hr es hes
  generalize run h es = w at hv hu hc ⊢
  refine ⟨⟨rfl, (passwordGenerator_config _).2.2.2.2.2⟩, ?_, step_idle w, ⟨hv, hc⟩, ?_⟩
  · intro e he
    rw [step_regenerates w e he]
    exact ⟨rfl, (passwordGenerator_config _).2.2.2.2.2⟩
  · intro hn
    obtain ⟨_, _, hl, hp⟩ := step_consistent w Event.toggleNumber rfl hv hu hc
    rw [step_regenerates w Event.toggleNumber trivial] at hl hp ⊢
    obtain ⟨cl, cn, cs, _⟩ := passwordGenerator_config
      { w with app := handler Event.toggleNumber w.app }
    have cn2 : (passwordGenerator { w with app := handler Event.toggleNumber w.app }).app.numberAllowed
        = true := by
      rw [cn]
      simp [handler, hn]
    have cs2 : (passwordGenerator { w with app := handler Event.toggleNumber w.app }).app.charAllowed
        = w.app.charAllowed := cs
    have cl2 : (passwordGenerator { w with app := handler Event.toggleNumber w.app }).app.length
        = w.app.length := cl
    refine ⟨cn2, cs2, cl2, ?_, ?_, ?_⟩
    · rw [← cl2]; exact hl
    · rw [← cn2, ← cs2]; exact hp
    · intro c hd
      rw [mem_pool_iff]
      exact Or.inr (Or.inl ⟨rfl, hd⟩)


/-- Witness for C4: mount, switch symbols on, move the slider to 12, copy. -/
theorem reactive_regeneration_witness :
    (constHost (3 / 8)).inUnitInterval
      ∧ (∀ e ∈ [Event.toggleChar, Event.setLength 12, Event.copy], e.valid = true)
      ∧ (run (constHost (3 / 8)) [Event.toggleChar, Event.setLength 12, Event.copy]).app.valid
      ∧ (run (constHost (3 / 8)) [Event.toggleChar, Event.setLength 12, Event.copy]).consistent :=
  ⟨constHost_unit _ unitValue_three_eighths, by decide,
   (reactive_regeneration (constHost (3 / 8)) (constHost_unit _ unitValue_three_eighths)
     [Event.toggleChar, Event.setLength 12, Event.copy] (by decide)).2.2.2.1⟩

/-- C5. `copyPasswordToClipBoard` leaves the clipboard holding exactly the
current password and leaves `length`, `numberAllowed`, `charAllowed` and
`password` unchanged; the copy button does exactly this. -/
theorem copyPasswordToClipBoard_frame (w : World) :
    (copyPasswordToClipBoard w).host.clipboard = w.app.password
      ∧ (copyPasswordToClipBoard w).app.length = w.app.length
      ∧ (copyPasswordToClipBoard w).app.numberAllowed = w.app.numberAllowed
      ∧ (copyPasswordToClipBoard w).app.charAllowed = w.app.charAllowed
      ∧ (copyPasswordToClipBoard w).app.password = w.app.password
      ∧ step w Event.copy = copyPasswordToClipBoard w :=
  ⟨rfl, rfl, rfl, rfl, rfl, rfl⟩

theorem copy_example (a : AppState) (h : Host) :
    (copyPasswordToClipBoard
      { app := { a with password := "Ab3$xZ" }, host := h }).host.clipboard = "Ab3$xZ" :=
  rfl

/-- C7 as stated fails: on the initial configuration with an empty password and
a random source that always returns `0`, `passwordGenerator` leaves the
password `AAAAAAAAA`, not the empty string it had before the call. -/
theorem passwordGenerator_replaces_password :
    (sampleWorld 8 false false 0).app.password = ""
      ∧ (passwordGenerator (sampleWorld 8 false false 0)).app.password = "AAAAAAAAA" := by
  refine ⟨rfl, ?_⟩
  rw [passwordGenerator_eq]
  have z : sampleIndex 0 (pool false false) = ((0 : ℕ) : Int) := by
    apply sampleIndex_eq _ _ 0 (by norm_num) <;> norm_num
  have e : (((sampleWorld 8 false false 0).app.length + 1).toNat) = 9 := by decide
  simp only [e, draws, sampleWorld, constHost, z]
  decide

/-- C7, amended. `passwordGenerator` leaves `length`, `numberAllowed` and
`charAllowed` (and the clipboard and the selection) as they were; its effect on
the widget state is to replace `password` by the string the loop built, which
does not depend on the previous password. -/
theorem passwordGenerator_frame (w : World) :
    (passwordGenerator w).app.length = w.app.length
      ∧ (passwordGenerator w).app.numberAllowed = w.app.numberAllowed
      ∧ (passwordGenerator w).app.charAllowed = w.app.charAllowed
      ∧ (passwordGenerator w).host.clipboard = w.host.clipboard
      ∧ (passwordGenerator w).host.selection = w.host.selection
      ∧ (passwordGenerator w).app.password
          = (forLoop w.app.length (pool w.app.numberAllowed w.app.charAllowed) 0 "" w.host).1
      ∧ ∀ p : String,
          (passwordGenerator { w with app := { w.app with password := p } }).app.password
            = (passwordGenerator w).app.password := by
  obtain ⟨h1, h2, h3, h4, h5, _⟩ := passwordGenerator_config w
  exact ⟨h1, h2, h3, h4, h5, rfl, fun _ => rfl⟩

end PasswordGenerator
